import Mathlib

/-!
Verification of the legal-chunking reconciliation pipeline.

This file gives a shallow embedding, in Lean 4, of the table-reconciliation
core of the repository (`src/processor.py`, `src/openai_utils.py`,
`src/constants.py`) and proves or refutes the specification's claims about
it.

Modelling conventions:

* Python `dict`s (which preserve insertion order) are modelled as
  association lists; lookup (`k in d` / `d[k]`) finds the first entry.
* Python lists of page numbers are `List Int`; page indices and document
  lengths are `Int`.
* Python functions that may raise are modelled with `Except String`.
* In-place mutation (`list.sort()` inside `find_closest_or_greater`, which
  sorts the very list stored in the text→pages dict) is modelled by
  explicit state passing: the function returns the updated list, and
  `create_table` threads the updated mapping through the iteration.
* A PDF page's text is modelled as the function `Int → String` giving each
  page's extracted text; a hyperlink descriptor is modelled by the
  (optional) anchor text its source rectangle extracts and its (optional)
  target page.
-/

/-- Association-list lookup, modelling Python's `k in d` / `d[k]` on an
insertion-ordered dict: the first entry with the given key wins. -/
def lookupA : List (String × List Int) → String → Option (List Int)
  | [], _ => none
  | (k', vs) :: rest, k => if k' == k then some vs else lookupA rest k

/-- Replace the value of the first entry with key `k` (models the fact that
the list object stored in the dict is mutated in place; an absent key leaves
the map unchanged — in the code the list was obtained from the dict, so the
key is always present). -/
def updateAssoc : List (String × List Int) → String → List Int → List (String × List Int)
  | [], _, _ => []
  | (k', vs) :: rest, k, l => if k' == k then (k', l) :: rest else (k', vs) :: updateAssoc rest k l

/-- `d[k].append(v)` on a `defaultdict(list)`: append to the first entry
with key `k`, or add a new entry at the end. -/
def appendEntry : List (String × List Int) → String → Int → List (String × List Int)
  | [], k, v => [(k, [v])]
  | (k', vs) :: rest, k, v =>
    if k' == k then (k', vs ++ [v]) :: rest else (k', vs) :: appendEntry rest k v

/-- The loop of `find_closest_or_greater`: scan the (sorted) list, return
the first element `≥ previous_page`, otherwise keep the element nearest to
`previous_page` seen so far and return it at the end.  Mirrors
`processor.py` lines 89-98. -/
def fcogLoop (previous_page : Int) : List Int → Int → Int
  | [], closest => closest
  | p :: rest, closest =>
    if previous_page ≤ p then p
    else if |p - previous_page| < |closest - previous_page| then fcogLoop previous_page rest p
    else fcogLoop previous_page rest closest

/-- `find_closest_or_greater` (`processor.py` lines 53-98).  Raises
(`Except.error`) on an empty list; returns the single element of a
singleton list unchanged; otherwise sorts the list in place (the sorted
list is returned as the second component, modelling the mutation of the
caller's list) and runs the scan loop with the smallest element as the
initial `closest`. -/
def find_closest_or_greater (page_numbers : List Int) (previous_page : Int) :
    Except String (Int × List Int) :=
  match page_numbers with
  | [] => Except.error "Unexpected value"
  | [p] => Except.ok (p, [p])
  | _ :: _ :: _ =>
    let sorted := List.insertionSort (· ≤ ·) page_numbers
    Except.ok (fcogLoop previous_page sorted sorted.headI, sorted)

/-- The value `find_closest_or_greater` returns (junk `0` on the error
case, which callers rule out). -/
def fcogVal (page_numbers : List Int) (previous_page : Int) : Int :=
  match find_closest_or_greater page_numbers previous_page with
  | Except.ok (v, _) => v
  | Except.error _ => 0

/-- The state of the candidate list after `find_closest_or_greater` ran on
it (sorted in place when it had at least two elements). -/
def fcogList (page_numbers : List Int) (previous_page : Int) : List Int :=
  match find_closest_or_greater page_numbers previous_page with
  | Except.ok (_, l) => l
  | Except.error _ => page_numbers

/-- One row of the reconciled table after `create_table`: the tuple
`(file_name, section, subsection, page_number, true_page_number)`. -/
structure Row where
  doc : String
  sec : String
  subsec : String
  pageLabel : String
  trueStart : Int
deriving DecidableEq, Repr

/-- `table[-1][TRUE_PAGE_NUMBER_START] if len(table) > 0 else 0`. -/
def prevOf (table : List Row) : Int :=
  match table.getLast? with
  | some r => r.trueStart
  | none => 0

/-- The (section, subsection, declared page label) triples of a
`DeclaredContentsMap`, in iteration order (section-major,
subsection-minor). -/
def declaredEntries (m : List (String × List (String × String))) :
    List (String × String × String) :=
  m.flatMap (fun s => s.2.map (fun p => (s.1, p.1, p.2)))

/-- The body of `create_table`'s nested loop (`processor.py` lines
131-154), iterating over the flattened (section, subsection, label)
triples.  For each triple: look the declared page label up in the
text→pages map; else look the subsection title up; else skip.  On success,
resolve via `find_closest_or_greater` (whose in-place sort is threaded back
into the map) and append the row. -/
def create_table_go (file_name : String) :
    List (String × String × String) → List (String × List Int) → List Row →
    Except String (List Row × List (String × List Int))
  | [], ttpm, table => Except.ok (table, ttpm)
  | (s, sub, pl) :: rest, ttpm, table =>
    match lookupA ttpm pl with
    | some ps =>
      match find_closest_or_greater ps (prevOf table) with
      | Except.error e => Except.error e
      | Except.ok (v, l) =>
        create_table_go file_name rest (updateAssoc ttpm pl l)
          (table ++ [⟨file_name, s, sub, pl, v⟩])
    | none =>
      match lookupA ttpm sub with
      | some ps =>
        match find_closest_or_greater ps (prevOf table) with
        | Except.error e => Except.error e
        | Except.ok (v, l) =>
          create_table_go file_name rest (updateAssoc ttpm sub l)
            (table ++ [⟨file_name, s, sub, pl, v⟩])
      | none => create_table_go file_name rest ttpm table

/-- `create_table` (`processor.py` lines 101-154).  Returns the built table
together with the final state of the text→pages map (which the in-place
sorts may have reordered). -/
def create_table (section_subsection_page_map : List (String × List (String × String)))
    (text_true_page_map : List (String × List Int)) (file_name : String) :
    Except String (List Row × List (String × List Int)) :=
  create_table_go file_name (declaredEntries section_subsection_page_map)
    text_true_page_map []

/-- A row extended with its true end page (`add_true_end_page`). -/
structure Row6 extends Row where
  trueEnd : Int
deriving DecidableEq, Repr

/-- `add_true_end_page` (`processor.py` lines 157-189): each record except
the last gets the next record's true start page as its true end page; the
last gets `document_length - 1`. -/
def add_true_end_page (table : List Row) (document_length : Int) : List Row6 :=
  match table with
  | [] => []
  | [r] => [⟨r, document_length - 1⟩]
  | r :: r2 :: rest => ⟨r, r2.trueStart⟩ :: add_true_end_page (r2 :: rest) document_length

/-- `constants.py` line 11. -/
def TABLE_OF_CONTENTS : String := "TABLE OF CONTENTS"

/-- Python's `s.find(pat)` on character lists, as an `Option`: index of the
first occurrence of `pat` in `s` (Python's `-1` is `none`). -/
def findSub (pat : List Char) : List Char → Option Nat
  | [] => if pat.isEmpty then some 0 else none
  | c :: rest =>
    if pat.isPrefixOf (c :: rest) then some 0 else (findSub pat rest).map (· + 1)

/-- `pat in s` as a Boolean (substring occurrence). -/
def containsSub (pat s : List Char) : Bool :=
  (findSub pat s).isSome

/-- Fuel-driven core of Python's `s.replace(pat, "")`: a single
left-to-right scan deleting non-overlapping occurrences of `pat`.  The fuel
only serves structural recursion; `s.length` fuel is always enough because
every step consumes at least one character of `s`. -/
def replacePyFuel (pat : List Char) : Nat → List Char → List Char
  | 0, _ => []
  | _ + 1, [] => []
  | fuel + 1, c :: rest =>
    if pat.isPrefixOf (c :: rest) then replacePyFuel pat fuel ((c :: rest).drop pat.length)
    else c :: replacePyFuel pat fuel rest

/-- Python's `s.replace(pat, "")` for a non-empty pattern (for the empty
pattern Python's result with an empty replacement is also `s`). -/
def replacePy (s pat : List Char) : List Char :=
  if pat.isEmpty then s else replacePyFuel pat s.length s

/-- `get_text_from_range_of_pages` (`processor.py` lines 295-321): the
concatenated text of pages `start_page .. end_page` inclusive.  The
document is modelled as the function giving each page's extracted text. -/
def get_text_from_range_of_pages (document : Int → String) (start_page end_page : Int) :
    String :=
  String.join (((List.range (end_page + 1 - start_page).toNat).map
    (fun k => document (start_page + k))))

/-- The character span `add_subsection_text` works on for a row:
`get_text_from_range_of_pages(document, row[TRUE_PAGE_NUMBER_START],
row[TRUE_PAGE_NUMBER_END])`. -/
def spanText (document : Int → String) (r : Row6) : List Char :=
  (get_text_from_range_of_pages document r.trueStart r.trueEnd).data

/-- `start_index = text.find(sub); if start_index == -1: start_index = 0`. -/
def startIdxOf (tfp : List Char) (sub : String) : Nat :=
  match findSub sub.data tfp with
  | some i => i
  | none => 0

/-- The slice taken for the last record: `text_for_pages[start_index:]`. -/
def lastSlice (document : Int → String) (r : Row6) : List Char :=
  let tfp := spanText document r
  tfp.drop (startIdxOf tfp r.subsec)

/-- The slice taken for a non-last record:
`text_for_pages[start_index:end_index]`, where the end index is the first
occurrence of the NEXT record's subsection title searched from position 0
(falling back to the full length when absent). -/
def midSlice (document : Int → String) (r rnext : Row6) : List Char :=
  let tfp := spanText document r
  let si := startIdxOf tfp r.subsec
  let ei := match findSub rnext.subsec.data tfp with
            | some i => i
            | none => tfp.length
  (tfp.take ei).drop si

/-- A row extended with its extracted subsection body text. -/
structure Row7 extends Row6 where
  text : String
deriving DecidableEq, Repr

/-- `add_subsection_text` (`processor.py` lines 192-237): slice each
record's page span between its own title's first occurrence and the next
record's title's first occurrence (both searched from position 0), then
delete the table-of-contents heading via Python `str.replace`. -/
def add_subsection_text (document : Int → String) : List Row6 → List Row7
  | [] => []
  | [r] => [⟨r, String.mk (replacePy (lastSlice document r) TABLE_OF_CONTENTS.data)⟩]
  | r :: rnext :: rest =>
    ⟨r, String.mk (replacePy (midSlice document r rnext) TABLE_OF_CONTENTS.data)⟩ ::
      add_subsection_text document (rnext :: rest)

/-- Python's `str.strip()` (both-ends whitespace trim) over characters;
kernel-computable, unlike `String.trim`. -/
def pyStripChars (s : List Char) : List Char :=
  ((s.dropWhile Char.isWhitespace).reverse.dropWhile Char.isWhitespace).reverse

/-- `str.strip()` on strings. -/
def pyStrip (s : String) : String :=
  String.mk (pyStripChars s.data)

/-- `str.lower()` (the strings involved are ASCII). -/
def pyLower (s : List Char) : List Char :=
  s.map Char.toLower

/-- A hyperlink descriptor as `get_text_true_page_mapping` consumes it:
`fromText` is present exactly when the link dict has a `"from"` key, and
then holds the text `page.get_textbox(link["from"])` extracts; `page` is
the link's `"page"` target when present. -/
structure Link where
  fromText : Option String
  page : Option Int

/-- `get_text_true_page_mapping` (`processor.py` lines 20-50): fold over
all links of all pages, skipping links missing `"from"` or `"page"`, and
append each target page to the entry of the stripped anchor text. -/
def get_text_true_page_mapping (pages : List (List Link)) : List (String × List Int) :=
  pages.foldl (fun m links =>
    links.foldl (fun m link =>
      match link.fromText, link.page with
      | some t, some p => appendEntry m (pyStrip t) p
      | _, _ => m) m) []

/-- Modelled from the spec's words (for comparison with
`get_text_true_page_mapping`): the stream of (trimmed anchor text, target
page) observations, in the order encountered, keeping only links that carry
both a source region and a target page. -/
def observedLinks (pages : List (List Link)) : List (String × Int) :=
  pages.flatten.filterMap (fun l =>
    match l.fromText, l.page with
    | some t, some p => some (pyStrip t, p)
    | _, _ => none)

/-- `SectionLabel` (`constants.py` lines 4-8). -/
inductive SectionLabel where
  | Termination
  | Indemnification
  | Confidentiality
  | Unknown
deriving DecidableEq, Repr

/-- Length of the common run of the two lists' leading characters. -/
def runLen : List Char → List Char → Nat
  | a :: as, b :: bs => if a = b then runLen as bs + 1 else 0
  | _, _ => 0

/-- `difflib.SequenceMatcher.find_longest_match` (no junk, which only
arises for sequences of 200+ characters): the `(i, j, size)` of the longest
common contiguous block, ties resolved to the smallest `i`, then the
smallest `j`. -/
def longestMatch (a b : List Char) : Nat × Nat × Nat :=
  (List.range a.length).foldl (fun best i =>
    (List.range b.length).foldl (fun best j =>
      let k := runLen (a.drop i) (b.drop j)
      if best.2.2 < k then (i, j, k) else best) best) (0, 0, 0)

/-- Total size of `difflib`'s matching blocks: the longest match plus,
recursively, the matches to its left and right.  Fuel-driven structural
recursion; `a.length` fuel suffices since each recursive part is strictly
shorter. -/
def matchSumFuel : Nat → List Char → List Char → Nat
  | 0, _, _ => 0
  | fuel + 1, a, b =>
    let (i, j, k) := longestMatch a b
    if k = 0 then 0
    else matchSumFuel fuel (a.take i) (b.take j) + k +
      matchSumFuel fuel (a.drop (i + k)) (b.drop (j + k))

/-- `M` in `difflib.SequenceMatcher(None, a, b).ratio() = 2*M/(|a|+|b|)`. -/
def matchSum (a b : List Char) : Nat :=
  matchSumFuel a.length a b

/-- `ratio() >= 0.6` (the default `get_close_matches` cutoff), expressed
exactly over the integers: `2*M/(|a|+|b|) ≥ 3/5  ↔  10*M ≥ 3*(|a|+|b|)`.
`cand` plays `difflib`'s `seq1`, `word` its `seq2`. -/
def qualifies (word cand : List Char) : Bool :=
  decide (3 * (cand.length + word.length) ≤ 10 * matchSum cand word)

/-- Does `c1` beat `c2` as a fuzzy match for `word`?  `heapq.nlargest`
compares `(ratio, candidate)` tuples, so equal ratios fall back to string
order.  Ratios are compared exactly by cross-multiplication. -/
def betterMatch (word c1 c2 : List Char) : Bool :=
  let m1 := matchSum c1 word
  let m2 := matchSum c2 word
  let t1 := c1.length + word.length
  let t2 := c2.length + word.length
  decide (m2 * t1 < m1 * t2) ||
    (decide (m2 * t1 = m1 * t2) && decide (String.mk c2 < String.mk c1))

/-- `get_close_matches(word, cands, n=1)`: the best candidate whose ratio
reaches the cutoff, if any. -/
def bestMatch (word : List Char) (cands : List String) : Option String :=
  cands.foldl (fun best cand =>
    if qualifies word cand.data then
      match best with
      | none => some cand
      | some b => if betterMatch word cand.data b.data then some cand else best
    else best) none

/-- `{label.value.strip().lower(): label for label in SectionLabel}`, in
enum order. -/
def cleanLabels : List (String × SectionLabel) :=
  [("termination", SectionLabel.Termination),
   ("indemnification", SectionLabel.Indemnification),
   ("confidentiality", SectionLabel.Confidentiality),
   ("unknown", SectionLabel.Unknown)]

/-- `map_output_to_label` (`openai_utils.py` lines 72-95): strip and
lowercase the classifier output, fuzzy-match it against the cleaned label
strings, and fall back to `Unknown` when nothing reaches the cutoff.
(`pyStripChars`/`pyLower` model Python's `strip`/`lower`; the labels
involved are ASCII.) -/
def map_output_to_label (output : String) : SectionLabel :=
  let clean := pyLower (pyStripChars output.data)
  match bestMatch clean (cleanLabels.map Prod.fst) with
  | none => SectionLabel.Unknown
  | some m =>
    match cleanLabels.find? (fun p => p.1 == m) with
    | some p => p.2
    | none => SectionLabel.Unknown

/-- The Boolean mirror of `create_table_go` recording, at each step that
resolves to a row, that the consulted candidate list contains a value
`≥` the previous row's resolved true start page. -/
def candOk : List (String × String × String) → List (String × List Int) → Int → Bool
  | [], _, _ => true
  | (_, sub, pl) :: rest, ttpm, prev =>
    match lookupA ttpm pl with
    | some ps =>
      ps.any (fun x => decide (prev ≤ x)) &&
        candOk rest (updateAssoc ttpm pl (fcogList ps prev)) (fcogVal ps prev)
    | none =>
      match lookupA ttpm sub with
      | some ps =>
        ps.any (fun x => decide (prev ≤ x)) &&
          candOk rest (updateAssoc ttpm sub (fcogList ps prev)) (fcogVal ps prev)
      | none => candOk rest ttpm prev

example : find_closest_or_greater [2, 3, 5, 10] 4 = Except.ok (5, [2, 3, 5, 10]) := rfl
example : find_closest_or_greater [1, 2, 3] 6 = Except.ok (3, [1, 2, 3]) := rfl
example : create_table [("S", [("Sub", "p")])] [("p", [3, 1])] "f" =
    Except.ok ([⟨"f", "S", "Sub", "p", 1⟩], [("p", [1, 3])]) := rfl


/-! ### Lemmas about the closest-or-greater scan -/

theorem fcogLoop_mem (prev : Int) :
    ∀ (l : List Int) (closest : Int), fcogLoop prev l closest ∈ closest :: l
  | [], closest => by simp [fcogLoop]
  | p :: rest, closest => by
    simp only [fcogLoop]
    split
    · simp
    · split
      · rcases List.mem_cons.mp (fcogLoop_mem prev rest p) with h | h
        · simp [h]
        · simp [List.mem_cons, h]
      · rcases List.mem_cons.mp (fcogLoop_mem prev rest closest) with h | h
        · simp [h]
        · simp [List.mem_cons, h]

theorem fcogLoop_ge (prev : Int) :
    ∀ (l : List Int) (closest : Int), l.Sorted (· ≤ ·) → (∃ x ∈ l, prev ≤ x) →
      prev ≤ fcogLoop prev l closest ∧ fcogLoop prev l closest ∈ l ∧
        ∀ y ∈ l, prev ≤ y → fcogLoop prev l closest ≤ y
  | [], closest, _, hex => by simp at hex
  | p :: rest, closest, hsorted, hex => by
    rcases List.sorted_cons.mp hsorted with ⟨hple, hrest⟩
    simp only [fcogLoop]
    by_cases hp : prev ≤ p
    · rw [if_pos hp]
      refine ⟨hp, List.mem_cons_self _ _, ?_⟩
      intro y hy _
      rcases List.mem_cons.mp hy with rfl | hy'
      · exact le_refl _
      · exact hple y hy'
    · rw [if_neg hp]
      have hex' : ∃ x ∈ rest, prev ≤ x := by
        rcases hex with ⟨x, hx, hxge⟩
        rcases List.mem_cons.mp hx with rfl | hx'
        · exact absurd hxge hp
        · exact ⟨x, hx', hxge⟩
      split
      · rcases fcogLoop_ge prev rest p hrest hex' with ⟨h1, h2, h3⟩
        refine ⟨h1, List.mem_cons_of_mem _ h2, ?_⟩
        intro y hy hyge
        rcases List.mem_cons.mp hy with rfl | hy'
        · exact absurd hyge hp
        · exact h3 y hy' hyge
      · rcases fcogLoop_ge prev rest closest hrest hex' with ⟨h1, h2, h3⟩
        refine ⟨h1, List.mem_cons_of_mem _ h2, ?_⟩
        intro y hy hyge
        rcases List.mem_cons.mp hy with rfl | hy'
        · exact absurd hyge hp
        · exact h3 y hy' hyge

theorem fcogLoop_max (prev : Int) :
    ∀ (l : List Int) (closest : Int), (∀ x ∈ l, x < prev) → closest < prev →
      fcogLoop prev l closest ∈ closest :: l ∧ ∀ y ∈ closest :: l, y ≤ fcogLoop prev l closest
  | [], closest, _, _ => by simp [fcogLoop]
  | p :: rest, closest, hall, hc => by
    have hp : p < prev := hall p (List.mem_cons_self _ _)
    have hrest : ∀ x ∈ rest, x < prev := fun x hx => hall x (List.mem_cons_of_mem _ hx)
    have hiff : (|p - prev| < |closest - prev|) ↔ closest < p := by
      rw [abs_of_neg (by omega : p - prev < 0), abs_of_neg (by omega : closest - prev < 0)]
      omega
    simp only [fcogLoop, if_neg (by omega : ¬ prev ≤ p)]
    by_cases hcp : closest < p
    · rw [if_pos (hiff.mpr hcp)]
      rcases fcogLoop_max prev rest p hrest hp with ⟨h1, h2⟩
      constructor
      · rcases List.mem_cons.mp h1 with h | h
        · simp [h]
        · simp [List.mem_cons, h]
      · intro y hy
        rcases List.mem_cons.mp hy with rfl | hy'
        · exact le_of_lt (lt_of_lt_of_le hcp (h2 p (List.mem_cons_self _ _)))
        · exact h2 y hy'
    · rw [if_neg (fun h => hcp (hiff.mp h))]
      rcases fcogLoop_max prev rest closest hrest hc with ⟨h1, h2⟩
      constructor
      · rcases List.mem_cons.mp h1 with h | h
        · simp [h]
        · simp [List.mem_cons, h]
      · intro y hy
        have hcle : closest ≤ fcogLoop prev rest closest := h2 closest (List.mem_cons_self _ _)
        rcases List.mem_cons.mp hy with h | h'
        · rw [h]; exact hcle
        · rcases List.mem_cons.mp h' with h'' | h''
          · rw [h'']; exact le_trans (le_of_not_lt hcp) hcle
          · exact h2 y (List.mem_cons_of_mem _ h'')

theorem fcog_ok (ps : List Int) (prev : Int) (h : ps ≠ []) :
    find_closest_or_greater ps prev = Except.ok (fcogVal ps prev, fcogList ps prev) := by
  rcases ps with _ | ⟨a, _ | ⟨b, t⟩⟩
  · exact absurd rfl h
  · rfl
  · rfl

theorem fcogList_perm (ps : List Int) (prev : Int) : (fcogList ps prev).Perm ps := by
  rcases ps with _ | ⟨a, _ | ⟨b, t⟩⟩
  · exact List.Perm.refl _
  · exact List.Perm.refl _
  · exact List.perm_insertionSort _ _

theorem fcog_spec (ps : List Int) (prev : Int) (h : ps ≠ []) :
    fcogVal ps prev ∈ ps ∧
    ((∃ x ∈ ps, prev ≤ x) →
      prev ≤ fcogVal ps prev ∧ ∀ y ∈ ps, prev ≤ y → fcogVal ps prev ≤ y) ∧
    ((∀ x ∈ ps, x < prev) → ∀ y ∈ ps, |prev - fcogVal ps prev| ≤ |prev - y|) := by
  rcases ps with _ | ⟨a, _ | ⟨b, t⟩⟩
  · exact absurd rfl h
  · refine ⟨by simp [fcogVal, find_closest_or_greater], ?_, ?_⟩
    · rintro ⟨x, hx, hxge⟩
      rcases List.mem_singleton.mp hx with rfl
      refine ⟨hxge, ?_⟩
      intro y hy _
      rcases List.mem_singleton.mp hy with rfl
      simp [fcogVal, find_closest_or_greater]
    · intro _ y hy
      rcases List.mem_singleton.mp hy with rfl
      simp [fcogVal, find_closest_or_greater]
  · have hperm : (List.insertionSort (· ≤ ·) (a :: b :: t)).Perm (a :: b :: t) :=
      List.perm_insertionSort _ _
    have hsorted : (List.insertionSort (· ≤ ·) (a :: b :: t)).Sorted (· ≤ ·) :=
      List.sorted_insertionSort _ _
    have hval : fcogVal (a :: b :: t) prev =
        fcogLoop prev (List.insertionSort (· ≤ ·) (a :: b :: t))
          (List.insertionSort (· ≤ ·) (a :: b :: t)).headI := rfl
    have hne : List.insertionSort (· ≤ ·) (a :: b :: t) ≠ [] := by
      intro hc
      exact absurd (hc ▸ hperm).symm.eq_nil (by simp)
    obtain ⟨c, l', hcl⟩ := List.exists_cons_of_ne_nil hne
    have hcmem : c ∈ List.insertionSort (· ≤ ·) (a :: b :: t) := by
      rw [hcl]; exact List.mem_cons_self _ _
    have hheadI : (List.insertionSort (· ≤ ·) (a :: b :: t)).headI = c := by
      rw [hcl]; rfl
    refine ⟨?_, ?_, ?_⟩
    · rw [hval, hheadI]
      rcases List.mem_cons.mp
          (fcogLoop_mem prev (List.insertionSort (· ≤ ·) (a :: b :: t)) c) with hm | hm
      · exact hperm.mem_iff.mp (by rw [hm]; exact hcmem)
      · exact hperm.mem_iff.mp hm
    · rintro ⟨x, hx, hxge⟩
      have hx' : x ∈ List.insertionSort (· ≤ ·) (a :: b :: t) := hperm.mem_iff.mpr hx
      rcases fcogLoop_ge prev (List.insertionSort (· ≤ ·) (a :: b :: t)) c hsorted
          ⟨x, hx', hxge⟩ with ⟨h1, _, h3⟩
      rw [hval, hheadI]
      refine ⟨h1, ?_⟩
      intro y hy hyge
      exact h3 y (hperm.mem_iff.mpr hy) hyge
    · intro hall y hy
      have hall' : ∀ x ∈ List.insertionSort (· ≤ ·) (a :: b :: t), x < prev :=
        fun x hx => hall x (hperm.mem_iff.mp hx)
      have hcprev : c < prev := hall' c hcmem
      rcases fcogLoop_max prev (List.insertionSort (· ≤ ·) (a :: b :: t)) c hall' hcprev
        with ⟨h1, h2⟩
      rw [hval, hheadI]
      have hymem : y ∈ c :: List.insertionSort (· ≤ ·) (a :: b :: t) :=
        List.mem_cons_of_mem _ (hperm.mem_iff.mpr hy)
      have hyle : y ≤ fcogLoop prev (List.insertionSort (· ≤ ·) (a :: b :: t)) c := h2 y hymem
      have hresmem : fcogLoop prev (List.insertionSort (· ≤ ·) (a :: b :: t)) c ∈
          List.insertionSort (· ≤ ·) (a :: b :: t) := by
        rcases List.mem_cons.mp h1 with hm | hm
        · rw [hm]; exact hcmem
        · exact hm
      have hresprev : fcogLoop prev (List.insertionSort (· ≤ ·) (a :: b :: t)) c < prev :=
        hall' _ hresmem
      have hyprev : y < prev := hall y hy
      rw [abs_of_pos (by omega : (0:Int) < prev - fcogLoop prev
        (List.insertionSort (· ≤ ·) (a :: b :: t)) c),
        abs_of_pos (by omega : (0:Int) < prev - y)]
      omega

/-! ### Claim C1 -/

/-- C1: for every non-empty candidate list and previous-start value,
`find_closest_or_greater` returns the smallest candidate `≥` the previous
start when one exists, and otherwise the candidate numerically closest to
the previous start; the returned value is always an element of the list.
In particular `[2,3,5,10]` with previous `4` gives `5`, and `[1,2,3]` with
previous `6` gives `3`. -/
theorem find_closest_or_greater_correct (ps : List Int) (prev : Int) (h : ps ≠ []) :
    find_closest_or_greater ps prev = Except.ok (fcogVal ps prev, fcogList ps prev) ∧
    fcogVal ps prev ∈ ps ∧
    ((∃ x ∈ ps, prev ≤ x) →
      prev ≤ fcogVal ps prev ∧ ∀ y ∈ ps, prev ≤ y → fcogVal ps prev ≤ y) ∧
    ((∀ x ∈ ps, x < prev) → ∀ y ∈ ps, |prev - fcogVal ps prev| ≤ |prev - y|) ∧
    fcogVal [2, 3, 5, 10] 4 = 5 ∧ fcogVal [1, 2, 3] 6 = 3 := by
  rcases fcog_spec ps prev h with ⟨h1, h2, h3⟩
  exact ⟨fcog_ok ps prev h, h1, h2, h3, by decide, by decide⟩

/-- Witness for C1 at candidates `[2,3,5,10]`, previous start `4`. -/
theorem find_closest_or_greater_correct_witness :
    ([2, 3, 5, 10] : List Int) ≠ [] ∧ fcogVal [2, 3, 5, 10] 4 ∈ ([2, 3, 5, 10] : List Int) ∧
      fcogVal [2, 3, 5, 10] 4 = 5 :=
  ⟨by decide, (find_closest_or_greater_correct [2, 3, 5, 10] 4 (by decide)).2.1,
    (find_closest_or_greater_correct [2, 3, 5, 10] 4 (by decide)).2.2.2.2.1⟩

/-! ### Claim C6 -/

/-- C6: `find_closest_or_greater` raises (`Except.error`) on an empty
candidate list, and returns a value (`Except.ok`) on every non-empty
list. -/
theorem find_closest_or_greater_error_handling (ps : List Int) (prev : Int) :
    (ps = [] → find_closest_or_greater ps prev = Except.error "Unexpected value") ∧
    (ps ≠ [] → ∃ v l, find_closest_or_greater ps prev = Except.ok (v, l)) := by
  constructor
  · intro h
    rw [h]
    rfl
  · intro h
    exact ⟨fcogVal ps prev, fcogList ps prev, fcog_ok ps prev h⟩

/-- Witness for C6 at `[]` and `[5]`. -/
theorem find_closest_or_greater_error_handling_witness :
    find_closest_or_greater [] 0 = Except.error "Unexpected value" ∧
      ∃ v l, find_closest_or_greater [5] 0 = Except.ok (v, l) :=
  ⟨(find_closest_or_greater_error_handling [] 0).1 rfl,
    (find_closest_or_greater_error_handling [5] 0).2 (by decide)⟩

/-! ### Claim C3 -/

/-- C3: for every non-empty table and document length, after
`add_true_end_page` every record except the last has true end page equal to
the following record's true start page, the last record's true end page is
the document length minus 1, and the previously attached fields of every
record are unchanged. -/
theorem add_true_end_page_correct :
    ∀ (table : List Row) (document_length : Int), table ≠ [] →
      (add_true_end_page table document_length).map Row6.toRow = table ∧
      (∀ i r r2, (add_true_end_page table document_length).get? i = some r →
        (add_true_end_page table document_length).get? (i + 1) = some r2 →
        r.trueEnd = r2.trueStart) ∧
      (∀ rl, (add_true_end_page table document_length).getLast? = some rl →
        rl.trueEnd = document_length - 1)
  | [], _, h => absurd rfl h
  | [r], dl, _ => by
    refine ⟨rfl, ?_, ?_⟩
    · intro i r' r2 h1 h2
      rcases i with _ | i
      · simp [add_true_end_page] at h2
      · simp [add_true_end_page] at h1
    · intro rl hrl
      have h : some (⟨r, dl - 1⟩ : Row6) = some rl := hrl
      cases Option.some.inj h
      rfl
  | r :: r2 :: rest, dl, _ => by
    rcases add_true_end_page_correct (r2 :: rest) dl (by simp) with ⟨ih1, ih2, ih3⟩
    have hstep : add_true_end_page (r :: r2 :: rest) dl =
        ⟨r, r2.trueStart⟩ :: add_true_end_page (r2 :: rest) dl := rfl
    refine ⟨?_, ?_, ?_⟩
    · rw [hstep, List.map_cons, ih1]
    · intro i r' r2' h1 h2
      rcases i with _ | i
      · have hr' : (⟨r, r2.trueStart⟩ : Row6) = r' := Option.some.inj h1
        have hmap : ((add_true_end_page (r2 :: rest) dl).map Row6.toRow).get? 0 =
            some r2'.toRow := by
          rw [List.get?_map, show (add_true_end_page (r2 :: rest) dl).get? 0 = some r2' from h2]
          rfl
        rw [ih1] at hmap
        have hts : r2'.toRow = r2 := (Option.some.inj hmap).symm
        rw [← hr']
        show r2.trueStart = r2'.trueStart
        rw [← hts]
      · rw [hstep] at h1 h2
        simp only [List.get?] at h1 h2
        exact ih2 i r' r2' h1 h2
    · intro rl hrl
      rw [hstep] at hrl
      have hne : add_true_end_page (r2 :: rest) dl ≠ [] := by
        intro hc
        rw [hc] at ih1
        simp at ih1
      obtain ⟨x, l', hxl⟩ := List.exists_cons_of_ne_nil hne
      rw [hxl] at hrl
      rw [List.getLast?_cons_cons] at hrl
      exact ih3 rl (by rw [hxl]; exact hrl)

/-- Witness for C3 at a concrete two-row table and document length 10. -/
theorem add_true_end_page_correct_witness :
    (add_true_end_page [⟨"f", "S", "A", "1", 2⟩, ⟨"f", "S", "B", "2", 5⟩] 10).map Row6.toRow =
      [⟨"f", "S", "A", "1", 2⟩, ⟨"f", "S", "B", "2", 5⟩] :=
  (add_true_end_page_correct [⟨"f", "S", "A", "1", 2⟩, ⟨"f", "S", "B", "2", 5⟩] 10
    (by decide)).1

/-! ### Claim C2 -/

theorem prevOf_append (table : List Row) (r : Row) : prevOf (table ++ [r]) = r.trueStart := by
  simp [prevOf]

theorem chain'_trueStart_append (table : List Row) (r : Row)
    (h : List.Chain' (· ≤ ·) (table.map Row.trueStart))
    (hle : prevOf table ≤ r.trueStart) :
    List.Chain' (· ≤ ·) ((table ++ [r]).map Row.trueStart) := by
  rw [List.map_append, List.chain'_append]
  refine ⟨h, List.chain'_singleton _, ?_⟩
  intro x hx y hy
  have hy' : r.trueStart = y := by simpa using hy
  rw [List.getLast?_map] at hx
  rcases htl : table.getLast? with _ | rl
  · rw [htl] at hx
    simp at hx
  · rw [htl] at hx
    have hx' : rl.trueStart = x := by simpa using hx
    rw [← hx', ← hy']
    have hpv : prevOf table = rl.trueStart := by simp [prevOf, htl]
    rw [← hpv]
    exact hle

theorem create_table_go_mono (fn : String) :
    ∀ (entries : List (String × String × String)) (ttpm : List (String × List Int))
      (table : List Row),
      candOk entries ttpm (prevOf table) = true →
      List.Chain' (· ≤ ·) (table.map Row.trueStart) →
      ∃ rows m2, create_table_go fn entries ttpm table = Except.ok (rows, m2) ∧
        List.Chain' (· ≤ ·) (rows.map Row.trueStart)
  | [], ttpm, table, _, hchain => ⟨table, ttpm, rfl, hchain⟩
  | (s, sub, pl) :: rest, ttpm, table, hok, hchain => by
    simp only [candOk] at hok
    cases hpl : lookupA ttpm pl with
    | some ps =>
      rw [hpl] at hok
      rw [Bool.and_eq_true, List.any_eq_true] at hok
      obtain ⟨⟨x, hx, hxge⟩, hrest⟩ := hok
      rw [decide_eq_true_eq] at hxge
      have hne : ps ≠ [] := by
        rintro rfl
        simp at hx
      have hred : create_table_go fn ((s, sub, pl) :: rest) ttpm table =
          create_table_go fn rest (updateAssoc ttpm pl (fcogList ps (prevOf table)))
            (table ++ [⟨fn, s, sub, pl, fcogVal ps (prevOf table)⟩]) := by
        simp only [create_table_go, hpl, fcog_ok ps (prevOf table) hne]
      rw [hred]
      have hge := ((fcog_spec ps (prevOf table) hne).2.1 ⟨x, hx, hxge⟩).1
      have hok' : candOk rest (updateAssoc ttpm pl (fcogList ps (prevOf table)))
          (prevOf (table ++ [⟨fn, s, sub, pl, fcogVal ps (prevOf table)⟩])) = true := by
        rw [prevOf_append]
        exact hrest
      have hchain' := chain'_trueStart_append table
        ⟨fn, s, sub, pl, fcogVal ps (prevOf table)⟩ hchain hge
      exact create_table_go_mono fn rest (updateAssoc ttpm pl (fcogList ps (prevOf table)))
        (table ++ [⟨fn, s, sub, pl, fcogVal ps (prevOf table)⟩]) hok' hchain'
    | none =>
      rw [hpl] at hok
      cases hsub : lookupA ttpm sub with
      | some ps =>
        rw [hsub] at hok
        rw [Bool.and_eq_true, List.any_eq_true] at hok
        obtain ⟨⟨x, hx, hxge⟩, hrest⟩ := hok
        rw [decide_eq_true_eq] at hxge
        have hne : ps ≠ [] := by
          rintro rfl
          simp at hx
        have hred : create_table_go fn ((s, sub, pl) :: rest) ttpm table =
            create_table_go fn rest (updateAssoc ttpm sub (fcogList ps (prevOf table)))
              (table ++ [⟨fn, s, sub, pl, fcogVal ps (prevOf table)⟩]) := by
          simp only [create_table_go, hpl, hsub, fcog_ok ps (prevOf table) hne]
        rw [hred]
        have hge := ((fcog_spec ps (prevOf table) hne).2.1 ⟨x, hx, hxge⟩).1
        have hok' : candOk rest (updateAssoc ttpm sub (fcogList ps (prevOf table)))
            (prevOf (table ++ [⟨fn, s, sub, pl, fcogVal ps (prevOf table)⟩])) = true := by
          rw [prevOf_append]
          exact hrest
        have hchain' := chain'_trueStart_append table
          ⟨fn, s, sub, pl, fcogVal ps (prevOf table)⟩ hchain hge
        exact create_table_go_mono fn rest (updateAssoc ttpm sub (fcogList ps (prevOf table)))
          (table ++ [⟨fn, s, sub, pl, fcogVal ps (prevOf table)⟩]) hok' hchain'
      | none =>
        rw [hsub] at hok
        have hred : create_table_go fn ((s, sub, pl) :: rest) ttpm table =
            create_table_go fn rest ttpm table := by
          simp only [create_table_go, hpl, hsub]
        rw [hred]
        exact create_table_go_mono fn rest ttpm table hok hchain

/-- C2: whenever, along the run of `create_table`, every consulted
candidate page list contains at least one value `≥` the previously emitted
row's resolved true start page (`0` for the first row) — the `candOk`
predicate — the true start pages of the produced table are monotonically
non-decreasing in emission order. -/
theorem create_table_monotone (m : List (String × List (String × String)))
    (ttpm : List (String × List Int)) (fn : String)
    (h : candOk (declaredEntries m) ttpm 0 = true) :
    ∃ rows m2, create_table m ttpm fn = Except.ok (rows, m2) ∧
      List.Chain' (· ≤ ·) (rows.map Row.trueStart) :=
  create_table_go_mono fn (declaredEntries m) ttpm [] h List.chain'_nil

/-- Witness for C2 at a concrete two-subsection map. -/
theorem create_table_monotone_witness :
    candOk (declaredEntries [("S", [("A", "1"), ("B", "2")])]) [("1", [2]), ("2", [5])] 0 =
        true ∧
      ∃ rows m2, create_table [("S", [("A", "1"), ("B", "2")])] [("1", [2]), ("2", [5])] "f" =
          Except.ok (rows, m2) ∧
        List.Chain' (· ≤ ·) (rows.map Row.trueStart) :=
  ⟨by decide,
    create_table_monotone [("S", [("A", "1"), ("B", "2")])] [("1", [2]), ("2", [5])] "f"
      (by decide)⟩

/-! ### Claim C4 -/

theorem lookupA_updateAssoc_isSome (m : List (String × List Int)) (k : String) (l : List Int)
    (k' : String) : (lookupA (updateAssoc m k l) k').isSome = (lookupA m k').isSome := by
  induction m with
  | nil => rfl
  | cons hd tl ih =>
    obtain ⟨kh, vh⟩ := hd
    simp only [updateAssoc]
    by_cases h : (kh == k) = true
    · rw [if_pos h]
      simp only [lookupA]
      by_cases h' : (kh == k') = true
      · rw [if_pos h', if_pos h']
        rfl
      · rw [if_neg h', if_neg h']
    · rw [if_neg h]
      simp only [lookupA]
      by_cases h' : (kh == k') = true
      · rw [if_pos h', if_pos h']
      · rw [if_neg h', if_neg h', ih]

theorem create_table_go_proj (fn : String) :
    ∀ (entries : List (String × String × String)) (ttpm : List (String × List Int))
      (table rows : List Row) (m2 : List (String × List Int)),
      create_table_go fn entries ttpm table = Except.ok (rows, m2) →
      rows.map (fun r => (r.sec, r.subsec, r.pageLabel)) =
        table.map (fun r => (r.sec, r.subsec, r.pageLabel)) ++
          entries.filter
            (fun e => (lookupA ttpm e.2.2).isSome || (lookupA ttpm e.2.1).isSome)
  | [], ttpm, table, rows, m2, h => by
    cases h
    simp
  | (s, sub, pl) :: rest, ttpm, table, rows, m2, h => by
    cases hpl : lookupA ttpm pl with
    | some ps =>
      cases hf : find_closest_or_greater ps (prevOf table) with
      | error e =>
        rw [show create_table_go fn ((s, sub, pl) :: rest) ttpm table = Except.error e by
          simp only [create_table_go, hpl, hf]] at h
        cases h
      | ok vl =>
        obtain ⟨v, l⟩ := vl
        rw [show create_table_go fn ((s, sub, pl) :: rest) ttpm table =
            create_table_go fn rest (updateAssoc ttpm pl l)
              (table ++ [⟨fn, s, sub, pl, v⟩]) by
          simp only [create_table_go, hpl, hf]] at h
        have ih := create_table_go_proj fn rest (updateAssoc ttpm pl l)
          (table ++ [⟨fn, s, sub, pl, v⟩]) rows m2 h
        rw [ih]
        have hfc : rest.filter
            (fun e => (lookupA (updateAssoc ttpm pl l) e.2.2).isSome ||
              (lookupA (updateAssoc ttpm pl l) e.2.1).isSome) =
            rest.filter
            (fun e => (lookupA ttpm e.2.2).isSome || (lookupA ttpm e.2.1).isSome) :=
          List.filter_congr (fun e _ => by
            rw [lookupA_updateAssoc_isSome, lookupA_updateAssoc_isSome])
        rw [hfc]
        simp [List.filter_cons, hpl, List.map_append]
    | none =>
      cases hsub : lookupA ttpm sub with
      | some ps =>
        cases hf : find_closest_or_greater ps (prevOf table) with
        | error e =>
          rw [show create_table_go fn ((s, sub, pl) :: rest) ttpm table = Except.error e by
            simp only [create_table_go, hpl, hsub, hf]] at h
          cases h
        | ok vl =>
          obtain ⟨v, l⟩ := vl
          rw [show create_table_go fn ((s, sub, pl) :: rest) ttpm table =
              create_table_go fn rest (updateAssoc ttpm sub l)
                (table ++ [⟨fn, s, sub, pl, v⟩]) by
            simp only [create_table_go, hpl, hsub, hf]] at h
          have ih := create_table_go_proj fn rest (updateAssoc ttpm sub l)
            (table ++ [⟨fn, s, sub, pl, v⟩]) rows m2 h
          rw [ih]
          have hfc : rest.filter
              (fun e => (lookupA (updateAssoc ttpm sub l) e.2.2).isSome ||
                (lookupA (updateAssoc ttpm sub l) e.2.1).isSome) =
              rest.filter
              (fun e => (lookupA ttpm e.2.2).isSome || (lookupA ttpm e.2.1).isSome) :=
            List.filter_congr (fun e _ => by
              rw [lookupA_updateAssoc_isSome, lookupA_updateAssoc_isSome])
          rw [hfc]
          simp [List.filter_cons, hpl, hsub, List.map_append]
      | none =>
        rw [show create_table_go fn ((s, sub, pl) :: rest) ttpm table =
            create_table_go fn rest ttpm table by
          simp only [create_table_go, hpl, hsub]] at h
        have ih := create_table_go_proj fn rest ttpm table rows m2 h
        rw [ih]
        simp [List.filter_cons, hpl, hsub]

/-- C4: `create_table` looks the declared page label up first, then the
subsection title; a pair with neither key present in the link index is
dropped (contributes no row), the rows produced are exactly the resolvable
(section, subsection, label) triples in order, and an empty declared map
yields an empty table. -/
theorem create_table_lookup_policy :
    (∀ (ttpm : List (String × List Int)) (fn : String),
      create_table [] ttpm fn = Except.ok ([], ttpm)) ∧
    (∀ (m : List (String × List (String × String))) (ttpm : List (String × List Int))
      (fn : String) (rows : List Row) (m2 : List (String × List Int)),
      create_table m ttpm fn = Except.ok (rows, m2) →
      rows.map (fun r => (r.sec, r.subsec, r.pageLabel)) =
        (declaredEntries m).filter
          (fun e => (lookupA ttpm e.2.2).isSome || (lookupA ttpm e.2.1).isSome)) ∧
    (∀ (fn s sub pl : String) (ttpm : List (String × List Int)) (ps : List Int),
      lookupA ttpm pl = some ps → ps ≠ [] →
      create_table [(s, [(sub, pl)])] ttpm fn =
        Except.ok ([⟨fn, s, sub, pl, fcogVal ps 0⟩], updateAssoc ttpm pl (fcogList ps 0))) ∧
    (∀ (fn s sub pl : String) (ttpm : List (String × List Int)) (ps : List Int),
      lookupA ttpm pl = none → lookupA ttpm sub = some ps → ps ≠ [] →
      create_table [(s, [(sub, pl)])] ttpm fn =
        Except.ok ([⟨fn, s, sub, pl, fcogVal ps 0⟩], updateAssoc ttpm sub (fcogList ps 0))) := by
  refine ⟨fun ttpm fn => rfl, ?_, ?_, ?_⟩
  · intro m ttpm fn rows m2 h
    have := create_table_go_proj fn (declaredEntries m) ttpm [] rows m2 h
    simpa using this
  · intro fn s sub pl ttpm ps hpl hne
    show create_table_go fn [(s, sub, pl)] ttpm [] = _
    have h0 : prevOf ([] : List Row) = 0 := rfl
    simp only [create_table_go, hpl, h0, fcog_ok ps 0 hne]
    simp [create_table_go]
  · intro fn s sub pl ttpm ps hpl hsub hne
    show create_table_go fn [(s, sub, pl)] ttpm [] = _
    have h0 : prevOf ([] : List Row) = 0 := rfl
    simp only [create_table_go, hpl, hsub, h0, fcog_ok ps 0 hne]
    simp [create_table_go]

/-- Witness for C4 at concrete maps: empty declared map, a resolvable
label, and a label-miss resolved through the subsection title. -/
theorem create_table_lookup_policy_witness :
    create_table [] [("p", [1])] "f" = Except.ok ([], [("p", [1])]) ∧
    create_table [("S", [("Sub", "p")])] [("p", [3, 1])] "f" =
      Except.ok ([⟨"f", "S", "Sub", "p", 1⟩], updateAssoc [("p", [3, 1])] "p" (fcogList [3, 1] 0)) ∧
    create_table [("S", [("Sub", "p")])] [("Sub", [4])] "f" =
      Except.ok ([⟨"f", "S", "Sub", "p", 4⟩], updateAssoc [("Sub", [4])] "Sub" (fcogList [4] 0)) :=
  ⟨create_table_lookup_policy.1 [("p", [1])] "f",
   create_table_lookup_policy.2.2.1 "f" "S" "Sub" "p" [("p", [3, 1])] [3, 1] (by decide)
     (by decide),
   create_table_lookup_policy.2.2.2 "f" "S" "Sub" "p" [("Sub", [4])] [4] (by decide) (by decide)
     (by decide)⟩

/-! ### Claim C5 -/

theorem fcog_snd_perm (ps : List Int) (prev v : Int) (l : List Int)
    (h : find_closest_or_greater ps prev = Except.ok (v, l)) : l.Perm ps := by
  have hl : fcogList ps prev = l := by simp [fcogList, h]
  rw [← hl]
  exact fcogList_perm ps prev

theorem updateAssoc_map_fst (m : List (String × List Int)) (k : String) (l : List Int) :
    (updateAssoc m k l).map Prod.fst = m.map Prod.fst := by
  induction m with
  | nil => rfl
  | cons hd tl ih =>
    obtain ⟨kh, vh⟩ := hd
    simp only [updateAssoc]
    by_cases h : (kh == k) = true
    · rw [if_pos h]
      rfl
    · rw [if_neg h]
      simp only [List.map_cons, ih]

theorem lookupA_updateAssoc_self (m : List (String × List Int)) (k : String)
    (l ps : List Int) (h : lookupA m k = some ps) :
    lookupA (updateAssoc m k l) k = some l := by
  induction m with
  | nil => cases h
  | cons hd tl ih =>
    obtain ⟨kh, vh⟩ := hd
    simp only [updateAssoc]
    by_cases hk : (kh == k) = true
    · rw [if_pos hk]
      simp only [lookupA]
      rw [if_pos hk]
    · rw [if_neg hk]
      simp only [lookupA] at h ⊢
      rw [if_neg hk] at h ⊢
      exact ih h

theorem lookupA_updateAssoc_ne (m : List (String × List Int)) (k k' : String)
    (l : List Int) (h : k' ≠ k) :
    lookupA (updateAssoc m k l) k' = lookupA m k' := by
  induction m with
  | nil => rfl
  | cons hd tl ih =>
    obtain ⟨kh, vh⟩ := hd
    simp only [updateAssoc]
    by_cases hk : (kh == k) = true
    · rw [if_pos hk]
      simp only [lookupA]
      have hkk : kh = k := by simpa using hk
      have hne : (kh == k') = false := by
        simp [hkk]
        intro hc
        exact absurd hc.symm h
      rw [if_neg (by simp [hne]), if_neg (by simp [hne])]
    · rw [if_neg hk]
      simp only [lookupA]
      by_cases h' : (kh == k') = true
      · rw [if_pos h', if_pos h']
      · rw [if_neg h', if_neg h', ih]

theorem mapState_step (ttpm : List (String × List Int)) (key : String) (ps l : List Int)
    (hkey : lookupA ttpm key = some ps) (hperm : l.Perm ps) :
    (updateAssoc ttpm key l).map Prod.fst = ttpm.map Prod.fst ∧
    ∀ k qs, lookupA ttpm k = some qs →
      ∃ rs, lookupA (updateAssoc ttpm key l) k = some rs ∧ rs.Perm qs := by
  refine ⟨updateAssoc_map_fst ttpm key l, ?_⟩
  intro k qs hq
  by_cases hk : k = key
  · subst hk
    rw [hq] at hkey
    have hqp := Option.some.inj hkey
    refine ⟨l, lookupA_updateAssoc_self ttpm k l qs hq, ?_⟩
    rw [hqp]
    exact hperm
  · exact ⟨qs, by rw [lookupA_updateAssoc_ne ttpm key k l hk]; exact hq, List.Perm.refl qs⟩

theorem create_table_go_preserves (fn : String) :
    ∀ (entries : List (String × String × String)) (ttpm : List (String × List Int))
      (table rows : List Row) (m2 : List (String × List Int)),
      create_table_go fn entries ttpm table = Except.ok (rows, m2) →
      m2.map Prod.fst = ttpm.map Prod.fst ∧
      ∀ k ps, lookupA ttpm k = some ps → ∃ qs, lookupA m2 k = some qs ∧ qs.Perm ps
  | [], ttpm, table, rows, m2, h => by
    cases h
    exact ⟨rfl, fun k ps hk => ⟨ps, hk, List.Perm.refl ps⟩⟩
  | (s, sub, pl) :: rest, ttpm, table, rows, m2, h => by
    cases hpl : lookupA ttpm pl with
    | some ps =>
      cases hf : find_closest_or_greater ps (prevOf table) with
      | error e =>
        rw [show create_table_go fn ((s, sub, pl) :: rest) ttpm table = Except.error e by
          simp only [create_table_go, hpl, hf]] at h
        cases h
      | ok vl =>
        obtain ⟨v, l⟩ := vl
        rw [show create_table_go fn ((s, sub, pl) :: rest) ttpm table =
            create_table_go fn rest (updateAssoc ttpm pl l)
              (table ++ [⟨fn, s, sub, pl, v⟩]) by
          simp only [create_table_go, hpl, hf]] at h
        rcases mapState_step ttpm pl ps l hpl (fcog_snd_perm ps (prevOf table) v l hf)
          with ⟨hm1, hl1⟩
        rcases create_table_go_preserves fn rest (updateAssoc ttpm pl l)
          (table ++ [⟨fn, s, sub, pl, v⟩]) rows m2 h with ⟨hm2, hl2⟩
        refine ⟨hm2.trans hm1, ?_⟩
        intro k qs hq
        rcases hl1 k qs hq with ⟨rs, hrs, hrsperm⟩
        rcases hl2 k rs hrs with ⟨ts, hts, htsperm⟩
        exact ⟨ts, hts, htsperm.trans hrsperm⟩
    | none =>
      cases hsub : lookupA ttpm sub with
      | some ps =>
        cases hf : find_closest_or_greater ps (prevOf table) with
        | error e =>
          rw [show create_table_go fn ((s, sub, pl) :: rest) ttpm table = Except.error e by
            simp only [create_table_go, hpl, hsub, hf]] at h
          cases h
        | ok vl =>
          obtain ⟨v, l⟩ := vl
          rw [show create_table_go fn ((s, sub, pl) :: rest) ttpm table =
              create_table_go fn rest (updateAssoc ttpm sub l)
                (table ++ [⟨fn, s, sub, pl, v⟩]) by
            simp only [create_table_go, hpl, hsub, hf]] at h
          rcases mapState_step ttpm sub ps l hsub (fcog_snd_perm ps (prevOf table) v l hf)
            with ⟨hm1, hl1⟩
          rcases create_table_go_preserves fn rest (updateAssoc ttpm sub l)
            (table ++ [⟨fn, s, sub, pl, v⟩]) rows m2 h with ⟨hm2, hl2⟩
          refine ⟨hm2.trans hm1, ?_⟩
          intro k qs hq
          rcases hl1 k qs hq with ⟨rs, hrs, hrsperm⟩
          rcases hl2 k rs hrs with ⟨ts, hts, htsperm⟩
          exact ⟨ts, hts, htsperm.trans hrsperm⟩
      | none =>
        rw [show create_table_go fn ((s, sub, pl) :: rest) ttpm table =
            create_table_go fn rest ttpm table by
          simp only [create_table_go, hpl, hsub]] at h
        exact create_table_go_preserves fn rest ttpm table rows m2 h

/-- C5 counterexample: the claim that the reconciliation pipeline never
modifies the order of the LinkPageIndex's page-index lists is false —
`create_table` on the index `{"p": [3, 1]}` leaves the list for key `"p"`
sorted to `[1, 3]`, because `find_closest_or_greater` sorts the consulted
list in place. -/
theorem create_table_mutates_index_counterexample :
    create_table [("S", [("Sub", "p")])] [("p", [3, 1])] "f" =
      Except.ok ([⟨"f", "S", "Sub", "p", 1⟩], [("p", [1, 3])]) ∧
    [("p", ([1, 3] : List Int))] ≠ [("p", ([3, 1] : List Int))] :=
  ⟨rfl, by decide⟩

/-- C5 (amended): `create_table` never adds or removes keys of the
LinkPageIndex (it preserves the key list exactly), and each page-index list
keeps the same multiset of elements; but the order inside a consulted list
may change (it is sorted in place by the resolution step). -/
theorem create_table_preserves_index_keys_and_multisets
    (m : List (String × List (String × String))) (ttpm : List (String × List Int))
    (fn : String) (rows : List Row) (m2 : List (String × List Int))
    (h : create_table m ttpm fn = Except.ok (rows, m2)) :
    m2.map Prod.fst = ttpm.map Prod.fst ∧
    ∀ k ps, lookupA ttpm k = some ps → ∃ qs, lookupA m2 k = some qs ∧ qs.Perm ps :=
  create_table_go_preserves fn (declaredEntries m) ttpm [] rows m2 h

/-- Witness for the amended C5 at the concrete mutated index. -/
theorem create_table_preserves_index_witness :
    ([("p", ([1, 3] : List Int))]).map Prod.fst = ([("p", ([3, 1] : List Int))]).map Prod.fst ∧
    ∀ k ps, lookupA [("p", [3, 1])] k = some ps →
      ∃ qs, lookupA [("p", [1, 3])] k = some qs ∧ qs.Perm ps :=
  create_table_preserves_index_keys_and_multisets [("S", [("Sub", "p")])] [("p", [3, 1])] "f"
    [⟨"f", "S", "Sub", "p", 1⟩] [("p", [1, 3])] rfl

/-! ### Claims C7 and C10 -/

theorem containsSub_cons (pat : List Char) (c : Char) (rest : List Char)
    (h : containsSub pat (c :: rest) = false) :
    pat.isPrefixOf (c :: rest) = false ∧ containsSub pat rest = false := by
  simp only [containsSub, findSub] at h
  by_cases hp : pat.isPrefixOf (c :: rest) = true
  · rw [if_pos hp] at h
    cases h
  · have hp' : pat.isPrefixOf (c :: rest) = false := by
      cases hb : pat.isPrefixOf (c :: rest)
      · rfl
      · exact absurd hb hp
    rw [if_neg hp] at h
    refine ⟨hp', ?_⟩
    simp only [containsSub]
    cases hf : findSub pat rest with
    | none => rfl
    | some n =>
      rw [hf] at h
      simp at h

theorem replacePyFuel_no_occur (pat : List Char) :
    ∀ (fuel : Nat) (s : List Char), s.length ≤ fuel →
      containsSub pat s = false → replacePyFuel pat fuel s = s
  | 0, s, hle, _ => by
    have hs : s = [] := List.eq_nil_of_length_eq_zero (Nat.le_zero.mp hle)
    rw [hs]
    rfl
  | _ + 1, [], _, _ => rfl
  | fuel + 1, c :: rest, hle, h => by
    rcases containsSub_cons pat c rest h with ⟨h1, h2⟩
    simp only [replacePyFuel]
    rw [if_neg (by simp [h1])]
    rw [replacePyFuel_no_occur pat fuel rest (by simp at hle; omega) h2]

theorem replacePy_no_occur (pat s : List Char) (h : containsSub pat s = false) :
    replacePy s pat = s := by
  simp only [replacePy]
  by_cases hp : pat.isEmpty = true
  · rw [if_pos hp]
  · rw [if_neg hp]
    exact replacePyFuel_no_occur pat s.length s (le_refl _) h

theorem isPrefixOf_append_self : ∀ (p t : List Char), p.isPrefixOf (p ++ t) = true
  | [], t => by simp [List.isPrefixOf]
  | a :: p', t => by
    simp only [List.cons_append, List.isPrefixOf, List.append_eq]
    rw [isPrefixOf_append_self p' t]
    simp

theorem replacePy_leading_heading (pat t : List Char) (hne : pat ≠ [])
    (h : containsSub pat t = false) :
    replacePy (pat ++ t) pat = t := by
  rcases pat with _ | ⟨a, p'⟩
  · exact absurd rfl hne
  · simp only [replacePy]
    rw [if_neg (by simp)]
    simp only [List.cons_append, List.length_cons, replacePyFuel, List.append_eq]
    rw [if_pos (by simpa using isPrefixOf_append_self (a :: p') t)]
    have hdrop : List.drop (p'.length + 1) (a :: (p' ++ t)) = t := by
      simpa using List.drop_left (a :: p') t
    rw [hdrop]
    exact replacePyFuel_no_occur (a :: p') (p' ++ t).length t
      (by simp [List.length_append]) h

/-- C7 counterexample: a span can survive the table-of-contents stripping
with the heading still present.  On the single-page text
`"TABLE OF TABLE OF CONTENTSCONTENTS"` (one heading occurrence), the
single-pass `str.replace` deletion leaves exactly `"TABLE OF CONTENTS"`,
which contains — indeed is — the heading. -/
theorem add_subsection_text_toc_counterexample :
    add_subsection_text (fun _ => "TABLE OF TABLE OF CONTENTSCONTENTS")
        [⟨⟨"f", "S", "X", "1", 0⟩, 0⟩] =
      [⟨⟨⟨"f", "S", "X", "1", 0⟩, 0⟩, "TABLE OF CONTENTS"⟩] ∧
    containsSub TABLE_OF_CONTENTS.data "TABLE OF CONTENTS".data = true :=
  ⟨by decide, by decide⟩

/-- C7 (amended): `add_subsection_text` deletes the table-of-contents
heading by one left-to-right non-overlapping replacement pass (Python
`str.replace`).  A slice containing no heading occurrence is attached
unchanged; a slice that is the heading followed by heading-free text yields
exactly that heading-free text.  The pass does not guarantee the absence of
the heading in general, because deletion can juxtapose fragments that spell
the heading anew. -/
theorem add_subsection_text_toc_amended :
    (∀ s : List Char, containsSub TABLE_OF_CONTENTS.data s = false →
      replacePy s TABLE_OF_CONTENTS.data = s) ∧
    (∀ t : List Char, containsSub TABLE_OF_CONTENTS.data t = false →
      replacePy (TABLE_OF_CONTENTS.data ++ t) TABLE_OF_CONTENTS.data = t ∧
      containsSub TABLE_OF_CONTENTS.data
        (replacePy (TABLE_OF_CONTENTS.data ++ t) TABLE_OF_CONTENTS.data) = false) ∧
    (∀ (document : Int → String) (r : Row6),
      containsSub TABLE_OF_CONTENTS.data (lastSlice document r) = false →
      add_subsection_text document [r] = [⟨r, String.mk (lastSlice document r)⟩]) := by
  have hne : TABLE_OF_CONTENTS.data ≠ [] := by decide
  refine ⟨fun s h => replacePy_no_occur _ s h, fun t h => ?_, fun document r h => ?_⟩
  · have heq := replacePy_leading_heading TABLE_OF_CONTENTS.data t hne h
    exact ⟨heq, by rw [heq]; exact h⟩
  · simp only [add_subsection_text]
    rw [replacePy_no_occur _ _ h]

/-- Witness for the amended C7 at the heading-free text `"xy"`. -/
theorem add_subsection_text_toc_amended_witness :
    containsSub TABLE_OF_CONTENTS.data "xy".data = false ∧
    replacePy "xy".data TABLE_OF_CONTENTS.data = "xy".data ∧
    replacePy (TABLE_OF_CONTENTS.data ++ "xy".data) TABLE_OF_CONTENTS.data = "xy".data ∧
    add_subsection_text (fun _ => "xy") [⟨⟨"f", "S", "Q", "1", 0⟩, 0⟩] =
      [⟨⟨⟨"f", "S", "Q", "1", 0⟩, 0⟩,
        String.mk (lastSlice (fun _ => "xy") ⟨⟨"f", "S", "Q", "1", 0⟩, 0⟩)⟩] :=
  ⟨by decide, add_subsection_text_toc_amended.1 "xy".data (by decide),
    (add_subsection_text_toc_amended.2.1 "xy".data (by decide)).1,
    add_subsection_text_toc_amended.2.2 (fun _ => "xy") ⟨⟨"f", "S", "Q", "1", 0⟩, 0⟩
      (by decide)⟩

/-- C10: in `add_subsection_text` the end offset for a non-last record is
the first occurrence of the next record's title searched from position 0;
so when that occurrence lies strictly before the first occurrence of the
current record's own title, the attached body text is empty. -/
theorem add_subsection_text_inverted_titles (document : Int → String)
    (r r2 : Row6) (rest : List Row6) (si ei : Nat)
    (hsi : findSub r.subsec.data (spanText document r) = some si)
    (hei : findSub r2.subsec.data (spanText document r) = some ei)
    (hlt : ei < si) :
    add_subsection_text document (r :: r2 :: rest) =
      ⟨r, ""⟩ :: add_subsection_text document (r2 :: rest) := by
  have hmid : midSlice document r r2 = [] := by
    simp only [midSlice, startIdxOf, hsi, hei]
    apply List.drop_eq_nil_of_le
    have hlen : ((spanText document r).take ei).length ≤ ei := by
      simp [List.length_take]
    omega
  simp only [add_subsection_text, hmid]
  rfl

/-- Witness for C10: page text `"BA"`, current title `"A"` (first at 1),
next title `"B"` (first at 0). -/
theorem add_subsection_text_inverted_titles_witness :
    add_subsection_text (fun _ => "BA")
        [⟨⟨"f", "S", "A", "1", 0⟩, 0⟩, ⟨⟨"f", "S", "B", "2", 0⟩, 0⟩] =
      ⟨⟨⟨"f", "S", "A", "1", 0⟩, 0⟩, ""⟩ ::
        add_subsection_text (fun _ => "BA") [⟨⟨"f", "S", "B", "2", 0⟩, 0⟩] :=
  add_subsection_text_inverted_titles (fun _ => "BA") ⟨⟨"f", "S", "A", "1", 0⟩, 0⟩
    ⟨⟨"f", "S", "B", "2", 0⟩, 0⟩ [] 1 0 (by decide) (by decide) (by decide)

/-! ### Claim C8 -/

theorem links_foldl_filterMap :
    ∀ (links : List Link) (m : List (String × List Int)),
      links.foldl (fun m link =>
        match link.fromText, link.page with
        | some t, some p => appendEntry m (pyStrip t) p
        | _, _ => m) m =
      (links.filterMap (fun l =>
        match l.fromText, l.page with
        | some t, some p => some (pyStrip t, p)
        | _, _ => none)).foldl (fun m e => appendEntry m e.1 e.2) m
  | [], _ => rfl
  | l :: ls, m => by
    rcases l with ⟨ft, pg⟩
    rcases ft with _ | t
    · simp only [List.foldl_cons, List.filterMap_cons]
      exact links_foldl_filterMap ls m
    · rcases pg with _ | p
      · simp only [List.foldl_cons, List.filterMap_cons]
        exact links_foldl_filterMap ls m
      · simp only [List.foldl_cons, List.filterMap_cons]
        exact links_foldl_filterMap ls (appendEntry m (pyStrip t) p)

theorem gttpm_go_eq (pages : List (List Link)) :
    ∀ (m : List (String × List Int)),
      pages.foldl (fun m links => links.foldl (fun m link =>
        match link.fromText, link.page with
        | some t, some p => appendEntry m (pyStrip t) p
        | _, _ => m) m) m =
      (pages.flatten.filterMap (fun l =>
        match l.fromText, l.page with
        | some t, some p => some (pyStrip t, p)
        | _, _ => none)).foldl (fun m e => appendEntry m e.1 e.2) m := by
  induction pages with
  | nil => intro m; rfl
  | cons pg rest ih =>
    intro m
    simp only [List.foldl_cons, List.flatten_cons, List.filterMap_append, List.foldl_append]
    rw [links_foldl_filterMap pg m]
    exact ih _

theorem gttpm_eq_fold (pages : List (List Link)) :
    get_text_true_page_mapping pages =
      (observedLinks pages).foldl (fun m e => appendEntry m e.1 e.2) [] :=
  gttpm_go_eq pages []

theorem lookupA_appendEntry_self (m : List (String × List Int)) (k : String) (v : Int) :
    lookupA (appendEntry m k v) k = some ((lookupA m k).getD [] ++ [v]) := by
  induction m with
  | nil => simp [appendEntry, lookupA]
  | cons hd tl ih =>
    obtain ⟨kh, vh⟩ := hd
    simp only [appendEntry]
    by_cases h : (kh == k) = true
    · rw [if_pos h]
      simp only [lookupA]
      rw [if_pos h, if_pos h]
      rfl
    · rw [if_neg h]
      simp only [lookupA]
      rw [if_neg h, if_neg h]
      exact ih

theorem lookupA_appendEntry_ne (m : List (String × List Int)) (k k' : String) (v : Int)
    (h : k' ≠ k) : lookupA (appendEntry m k v) k' = lookupA m k' := by
  induction m with
  | nil =>
    simp only [appendEntry, lookupA]
    rw [if_neg (by simp; exact fun hc => h hc.symm)]
  | cons hd tl ih =>
    obtain ⟨kh, vh⟩ := hd
    simp only [appendEntry]
    by_cases hk : (kh == k) = true
    · rw [if_pos hk]
      simp only [lookupA]
      have hkk : kh = k := by simpa using hk
      have hne : (kh == k') = false := beq_eq_false_iff_ne.mpr (by
        rw [hkk]
        exact fun hc => h hc.symm)
      rw [if_neg (by simp [hne]), if_neg (by simp [hne])]
    · rw [if_neg hk]
      simp only [lookupA]
      by_cases h' : (kh == k') = true
      · rw [if_pos h', if_pos h']
      · rw [if_neg h', if_neg h', ih]

theorem lookupA_foldl_appendEntry (k : String) :
    ∀ (obs : List (String × Int)) (m : List (String × List Int)),
      lookupA (obs.foldl (fun m e => appendEntry m e.1 e.2) m) k =
        if obs.filter (fun e => e.1 == k) = [] then lookupA m k
        else some ((lookupA m k).getD [] ++ (obs.filter (fun e => e.1 == k)).map Prod.snd)
  | [], m => by simp
  | (t, p) :: rest, m => by
    simp only [List.foldl_cons]
    rw [lookupA_foldl_appendEntry k rest (appendEntry m t p)]
    by_cases ht : (t == k) = true
    · have htk : t = k := by simpa using ht
      rw [htk, lookupA_appendEntry_self m k p]
      by_cases hrest : rest.filter (fun e => e.1 == k) = []
      · rw [if_pos hrest]
        rw [show ((k, p) :: rest).filter (fun e => e.1 == k) =
            (k, p) :: rest.filter (fun e => e.1 == k) by simp [List.filter_cons]]
        rw [if_neg (by simp), hrest]
        simp
      · rw [if_neg hrest]
        rw [show ((k, p) :: rest).filter (fun e => e.1 == k) =
            (k, p) :: rest.filter (fun e => e.1 == k) by simp [List.filter_cons]]
        rw [if_neg (by simp)]
        simp [List.append_assoc]
    · have htf : (t == k) = false := by
        cases hb : (t == k)
        · rfl
        · exact absurd hb ht
      have hkt : k ≠ t := fun hc => by simp [hc] at htf
      rw [lookupA_appendEntry_ne m t k p hkt]
      rw [show ((t, p) :: rest).filter (fun e => e.1 == k) =
          rest.filter (fun e => e.1 == k) by simp [List.filter_cons, htf]]

/-- C8: the Link-Page Index Builder maps each whitespace-trimmed anchor
text to the list of all target page indices observed for it, in encounter
order: looking a key up in the built mapping gives exactly the target pages
of the (trimmed-text, page) observations carrying that text, and a key with
no such observation is absent.  Links missing a source region or a target
page contribute nothing (the builder is total — it never raises). -/
theorem get_text_true_page_mapping_spec (pages : List (List Link)) (k : String) :
    lookupA (get_text_true_page_mapping pages) k =
      if (observedLinks pages).filter (fun e => e.1 == k) = [] then none
      else some (((observedLinks pages).filter (fun e => e.1 == k)).map Prod.snd) := by
  rw [gttpm_eq_fold, lookupA_foldl_appendEntry k (observedLinks pages) []]
  split_ifs
  · rfl
  · simp [lookupA]

/-! ### Claim C9 -/

theorem bestMatch_fold_id (word : List Char) :
    ∀ (cands : List String) (acc : Option String),
      (∀ c ∈ cands, qualifies word c.data = false) →
      cands.foldl (fun best cand =>
        if qualifies word cand.data then
          match best with
          | none => some cand
          | some b => if betterMatch word cand.data b.data then some cand else best
        else best) acc = acc
  | [], _, _ => rfl
  | c :: cs, acc, h => by
    simp only [List.foldl_cons]
    rw [if_neg (by simp [h c (List.mem_cons_self _ _)])]
    exact bestMatch_fold_id word cs acc (fun c' hc' => h c' (List.mem_cons_of_mem _ hc'))

theorem bestMatch_none (word : List Char) (cands : List String)
    (h : ∀ c ∈ cands, qualifies word c.data = false) : bestMatch word cands = none :=
  bestMatch_fold_id word cands none h

/-- C9: the label mapping always returns one of the four labels
Termination, Indemnification, Confidentiality, Unknown; and whenever the
stripped, lowercased classifier response reaches the similarity cutoff
(`ratio ≥ 0.6`) against none of the cleaned label strings, it returns
exactly `Unknown`. -/
theorem map_output_to_label_spec (output : String) :
    (map_output_to_label output = SectionLabel.Termination ∨
     map_output_to_label output = SectionLabel.Indemnification ∨
     map_output_to_label output = SectionLabel.Confidentiality ∨
     map_output_to_label output = SectionLabel.Unknown) ∧
    ((∀ c ∈ cleanLabels.map Prod.fst,
        qualifies (pyLower (pyStripChars output.data)) c.data = false) →
      map_output_to_label output = SectionLabel.Unknown) := by
  constructor
  · cases hc : map_output_to_label output <;> simp [hc]
  · intro h
    simp only [map_output_to_label]
    rw [bestMatch_none (pyLower (pyStripChars output.data)) (cleanLabels.map Prod.fst) h]

set_option maxRecDepth 40000 in
/-- Witness for C9 at the response `"zz"`, which fuzzy-matches no label. -/
theorem map_output_to_label_spec_witness :
    (∀ c ∈ cleanLabels.map Prod.fst,
      qualifies (pyLower (pyStripChars "zz".data)) c.data = false) ∧
    map_output_to_label "zz" = SectionLabel.Unknown :=
  ⟨by decide, (map_output_to_label_spec "zz").2 (by decide)⟩
